import Mathlib

/-!
Verification of the AHP / FCE / TOPSIS evaluation core
(`modules/ahp_module.py`, `modules/fce_module.py`, `modules/topsis_module.py`,
`utils/normalization.py`) against its natural-language specification.

The Python code is embedded shallowly:

* exact rational arithmetic (`ℚ`) models the float arithmetic of the
  validation and FCE paths, which involve only field operations and
  comparisons;
* real arithmetic (`ℝ`) with `Real.sqrt` models the TOPSIS pipeline and the
  AHP eigenvector post-processing, which involve Euclidean norms;
* fallible functions (Python `raise`) are modelled with `Option`/`Except`;
* `np.linalg.eig` is a LAPACK call: the weight computation is parameterised
  by the returned principal eigenpair `(lam, v)`, characterised by the
  eigenvalue equation together with Perron sign-consistency of the
  eigenvector of a positive matrix.
-/

namespace AhpFceTopsis

/-! ## Numeric tolerances

`np.allclose(a, b, atol=tol)` leaves `rtol` at the numpy default `1e-5`,
so a comparison against the target `1.0` succeeds iff
`|a - 1| ≤ tol + 1e-5 * |1.0|`. -/

/-- Default relative tolerance of `np.allclose` (`rtol=1e-5`), which
`_validate_judgment_matrix` leaves in place when it passes `atol`. -/
def npRtol : ℚ := 1 / 100000

/-- The `tolerance: float = 1e-6` default of `_validate_judgment_matrix`. -/
def ahpTol : ℚ := 1 / 1000000

/-- Test of `np.allclose(x, 1.0, atol=tol)` for a single entry `x`:
`|x - 1.0| ≤ atol + rtol * |1.0|`. -/
def allcloseOne (x tol : ℚ) : Bool := decide (|x - 1| ≤ tol + npRtol * 1)

/-! ## FCE module (`modules/fce_module.py`)

Dictionaries are modelled as association lists; `dict.get(k, default)`
is first-match lookup with a default, matching the unique-key discipline
of Python dicts. -/

/-- The fixed 4-term linguistic scale `['差', '中', '良', '优']`
(worst → best) hard-coded in `fuzzy_evaluate`. -/
def linguisticTerms : List String := ["差", "中", "良", "优"]

/-- Python `d.get(k, default)`-style lookup on an association list:
the value of the first (in a dict, unique) entry with key `k`, or the
default. -/
def dictGet (d : List (String × ℚ)) (k : String) (dflt : ℚ) : ℚ :=
  match d with
  | [] => dflt
  | p :: rest => if p.1 = k then p.2 else dictGet rest k dflt

/-- The four counts `expert_assessments.get(term, 0)` in scale order. -/
def assessmentCounts (assessments : List (String × ℚ)) : List ℚ :=
  linguisticTerms.map fun t => dictGet assessments t 0

/-- The four values `fuzzy_scale.get(term, 0.0)` in scale order.  (The
nested-dict branch of `fuzzy_evaluate`, a YAML-loading artifact, is not
modelled: scale values are plain numbers.) -/
def scoreValues (scale : List (String × ℚ)) : List ℚ :=
  linguisticTerms.map fun t => dictGet scale t 0

/-- `total_experts = np.sum(assessment_counts)`. -/
def totalExperts (assessments : List (String × ℚ)) : ℚ :=
  (assessmentCounts assessments).sum

/-- Dot product of two lists, `np.dot` on equal-length vectors. -/
def listDot (a b : List ℚ) : ℚ :=
  ((a.zip b).map fun p => p.1 * p.2).sum

/-- Result record of `fuzzy_evaluate` (the keys the claims mention). -/
structure FCEResult where
  membership_vector : List ℚ
  fuzzy_score : ℚ
  total_experts : ℚ
  valid : Bool
  deriving Repr, DecidableEq

/-- Error message `"Expert assessments cannot be empty"`. -/
def emptyAssessmentsMsg : String := "Expert assessments cannot be empty"

/-- Error message `"Fuzzy scale cannot be empty"`. -/
def emptyScaleMsg : String := "Fuzzy scale cannot be empty"

/-- Error message for a negative count (`"Negative count for term ..."`). -/
def negativeCountMsg : String := "Negative count for term"

/-- Error message `"Total expert assessments cannot be zero"`. -/
def zeroTotalMsg : String := "Total expert assessments cannot be zero"

/-- Error message for a membership-sum violation. -/
def membershipMsg : String := "Membership degrees do not sum to 1.0"

/-- Shallow embedding of `fuzzy_evaluate(expert_assessments, fuzzy_scale,
validate_membership, tolerance)`:  validates the inputs, normalises the
counts over the fixed 4-term scale into a membership vector, and
defuzzifies it against the scale values. -/
def fuzzy_evaluate (assessments scale : List (String × ℚ))
    (validate_membership : Bool) (tolerance : ℚ) : Except String FCEResult :=
  if assessments = [] then .error emptyAssessmentsMsg
  else if scale = [] then .error emptyScaleMsg
  else if (assessmentCounts assessments).any (fun c => decide (c < 0)) then
    .error negativeCountMsg
  else
    let total := totalExperts assessments
    if total = 0 then .error zeroTotalMsg
    else
      let membership := (assessmentCounts assessments).map (· / total)
      let membershipSum := membership.sum
      if validate_membership = true ∧ tolerance < |membershipSum - 1| then
        .error membershipMsg
      else
        .ok { membership_vector := membership
              fuzzy_score := listDot membership (scoreValues scale)
              total_experts := total
              valid := decide (|membershipSum - 1| ≤ tolerance) }

/-- Minimum of the four scale values (the `min(scale)` of the spec). -/
def scaleMin (scale : List (String × ℚ)) : ℚ :=
  min (min (dictGet scale "差" 0) (dictGet scale "中" 0))
    (min (dictGet scale "良" 0) (dictGet scale "优" 0))

/-- Maximum of the four scale values (the `max(scale)` of the spec). -/
def scaleMax (scale : List (String × ℚ)) : ℚ :=
  max (max (dictGet scale "差" 0) (dictGet scale "中" 0))
    (max (dictGet scale "良" 0) (dictGet scale "优" 0))

/-! ## AHP judgment-matrix validation (`modules/ahp_module.py`)

A judgment matrix is a `List (List ℚ)`; numpy arrays built from nested
lists are rectangular, so the `ndim == 2` / squareness test of
`_validate_judgment_matrix` amounts to every row having length equal to
the number of rows. -/

/-- Entry `A[i][j]` of a nested-list matrix (out-of-range reads default
to `0`; the embedded functions only read in-range entries). -/
def entryAt (A : List (List ℚ)) (i j : ℕ) : ℚ := (A.getD i []).getD j 0

/-- Number of elements, `np.ndarray.size`. -/
def matrixSize (A : List (List ℚ)) : ℕ := (A.map List.length).sum

/-- Squareness of a rectangular nested-list array: every row has as many
columns as there are rows. -/
def isSquareMatrix (A : List (List ℚ)) : Bool :=
  A.all fun r => r.length == A.length

/-- Message `"Matrix must be square, got ..."`. -/
def squareMsg : String := "Matrix must be square"

/-- Message `"All matrix elements must be positive"`. -/
def positiveMsg : String := "All matrix elements must be positive"

/-- Message `"Diagonal elements must be 1.0"`. -/
def diagonalMsg : String := "Diagonal elements must be 1.0"

/-- Message `"Matrix must satisfy reciprocal property A[i][j] = 1/A[j][i]"`. -/
def reciprocalMsg : String :=
  "Matrix must satisfy reciprocal property A[i][j] = 1/A[j][i]"

/-- Validation report of `_validate_judgment_matrix`. -/
structure MatrixValidation where
  is_square : Bool
  positive_elements : Bool
  diagonal_ones : Bool
  reciprocal_property : Bool
  is_valid : Bool
  error_messages : List String
  deriving Repr, DecidableEq

/-- Shallow embedding of `_validate_judgment_matrix(judgment_matrix,
tolerance)`: squareness (early return on failure), positivity of all
entries, `np.allclose(diag, 1.0, atol=tolerance)`, and the reciprocal
property `np.allclose(A * A.T, 1.0, atol=tolerance)`. -/
def validate_judgment_matrix (A : List (List ℚ)) (tolerance : ℚ) :
    MatrixValidation :=
  if ¬ (isSquareMatrix A = true) then
    { is_square := false, positive_elements := false, diagonal_ones := false
      reciprocal_property := false, is_valid := false
      error_messages := [squareMsg] }
  else
    let n := A.length
    let pos := A.all fun r => r.all fun x => decide (0 < x)
    let diag := (List.range n).all fun i => allcloseOne (entryAt A i i) tolerance
    let recip := (List.range n).all fun i =>
      (List.range n).all fun j =>
        allcloseOne (entryAt A i j * entryAt A j i) tolerance
    { is_square := true
      positive_elements := pos
      diagonal_ones := diag
      reciprocal_property := recip
      is_valid := pos && diag && recip
      error_messages :=
        (if pos then [] else [positiveMsg]) ++
        (if diag then [] else [diagonalMsg]) ++
        (if recip then [] else [reciprocalMsg]) }

/-- The Python test `"reciprocal" in str(validation['error_messages'])`:
of the messages `_validate_judgment_matrix` can produce, exactly the
reciprocal-property message contains the word `reciprocal`, so the
substring test holds iff that message is in the list. -/
def mentionsReciprocal (msgs : List String) : Bool :=
  msgs.any fun m => m == reciprocalMsg

/-- Message of the `JudgmentMatrixError` raised on an empty matrix. -/
def emptyMatrixMsg : String := "Empty matrix provided"

/-- Message of the `JudgmentMatrixError` raised on failed validation
(`"Invalid judgment matrix: ..."`). -/
def invalidMatrixMsg : String := "Invalid judgment matrix"

/-- The raise phase of `calculate_weights(judgment_matrix,
validate_consistency, ...)` (lines 50–66 of `ahp_module.py`), before the
eigen-decomposition: `some msg` models `raise JudgmentMatrixError(msg)`,
`none` means the computation proceeds and weights are returned.  The
`np.isfinite` test cannot fail over `ℚ` and is omitted. -/
def calculate_weights_check (A : List (List ℚ)) (validate_consistency : Bool)
    (tolerance : ℚ) : Option String :=
  if matrixSize A = 0 then some emptyMatrixMsg
  else
    let validation := validate_judgment_matrix A tolerance
    if ¬ (validation.is_valid = true) then
      if validate_consistency = false ∧
          mentionsReciprocal validation.error_messages = true then
        none
      else
        some invalidMatrixMsg
    else
      none

/-! ## AHP consistency metrics and eigenvector post-processing -/

/-- The `RI_TABLE` of `calculate_weights` (`ahp_module.py` lines 92–94):
exact values for `n = 1..10`, default `1.59` otherwise. -/
def riTable (n : ℕ) : ℚ :=
  match n with
  | 1 => 0 | 2 => 0 | 3 => 58 / 100 | 4 => 90 / 100 | 5 => 112 / 100
  | 6 => 124 / 100 | 7 => 132 / 100 | 8 => 141 / 100 | 9 => 145 / 100
  | 10 => 149 / 100
  | _ => 159 / 100

/-- Consistency metrics of `calculate_weights` (lines 86–95): for `n = 1`,
`CI = CR = 0`; otherwise `CI = (lambda_max - n)/(n - 1)` and
`CR = CI / RI` when `RI > 0`, else `0`. -/
noncomputable def consistencyRatio (lambdaMax : ℝ) (n : ℕ) : ℝ :=
  if n = 1 then 0
  else
    let CI : ℝ := (lambdaMax - n) / (n - 1)
    if (0 : ℝ) < (riTable n : ℚ) then CI / (riTable n : ℚ) else 0

/-- Post-processing of the principal eigenvector in `calculate_weights`
(lines 77–83): take absolute values and renormalise to sum `1.0`. -/
noncomputable def weightsFromEigenvector {n : ℕ} (v : Fin n → ℝ) : Fin n → ℝ :=
  fun i => |v i| / ∑ j, |v j|

/-- Structural validity of an `n×n` real judgment matrix, mirroring the
three entrywise checks of `_validate_judgment_matrix` on an array already
known to be square: positive entries, diagonal `np.allclose` to `1.0`,
reciprocal products `np.allclose` to `1.0`. -/
def ValidJudgmentMatrixR {n : ℕ} (A : Matrix (Fin n) (Fin n) ℝ)
    (tolerance : ℝ) : Prop :=
  (∀ i j, 0 < A i j) ∧
  (∀ i, |A i i - 1| ≤ tolerance + (npRtol : ℝ) * 1) ∧
  (∀ i j, |A i j * A j i - 1| ≤ tolerance + (npRtol : ℝ) * 1)

/-! ## Hierarchical weight composition (`calculate_primary_weights`)

`calculate_primary_weights` walks the five top-level branches
`C1..C5`; for each it loads the branch's second-level matrix from a YAML
file and solves it with `calculate_weights`, catching any exception.
File loading and eigen-solving are not shallowly embeddable, so the
composition loop is parameterised by the per-branch outcome: either the
branch's solved 3-element second-level weight vector, or the message of
the exception the `try`/`except` block caught. -/

/-- Branch names `['C1', 'C2', 'C3', 'C4', 'C5']`. -/
def capabilityName (i : Fin 5) : String :=
  match i with
  | 0 => "C1" | 1 => "C2" | 2 => "C3" | 3 => "C4" | 4 => "C5"

/-- The `secondary_mapping` table: leaf identifiers of each branch. -/
def secondaryMapping (i : Fin 5) : List String :=
  match i with
  | 0 => ["C1_1", "C1_2", "C1_3"]
  | 1 => ["C2_1", "C2_2", "C2_3"]
  | 2 => ["C3_1", "C3_2", "C3_3"]
  | 3 => ["C4_1", "C4_2", "C4_3"]
  | 4 => ["C5_1", "C5_2", "C5_3"]

/-- Leaf contributions of one branch: on success, the three leaf weights
`primary_weight * secondary_weights[sec_idx]` keyed by the
`secondary_mapping` identifiers; on a caught exception, nothing. -/
def branchLeaves (primary : Fin 5 → ℚ)
    (branch : Fin 5 → Except String (Fin 3 → ℚ)) (i : Fin 5) :
    List (String × ℚ) :=
  match branch i with
  | .ok w =>
      [((secondaryMapping i).getD 0 "", primary i * w 0),
        ((secondaryMapping i).getD 1 "", primary i * w 1),
        ((secondaryMapping i).getD 2 "", primary i * w 2)]
  | .error _ => []

/-- The `global_weights` accumulated by the loop over the five branches
(in branch order), before renormalisation. -/
def globalWeightsRaw (primary : Fin 5 → ℚ)
    (branch : Fin 5 → Except String (Fin 3 → ℚ)) : List (String × ℚ) :=
  branchLeaves primary branch 0 ++ branchLeaves primary branch 1 ++
    branchLeaves primary branch 2 ++ branchLeaves primary branch 3 ++
    branchLeaves primary branch 4

/-- Messages the loop appends for one branch: the
`"Error processing {cap} secondary indicators: {e}"` message when the
branch's `try` block raised, nothing otherwise. -/
def branchErrorMsgs (branch : Fin 5 → Except String (Fin 3 → ℚ))
    (i : Fin 5) : List String :=
  match branch i with
  | .ok _ => []
  | .error e =>
      ["Error processing " ++ capabilityName i ++
        " secondary indicators: " ++ e]

/-- The `results['errors']` list accumulated over the five branches. -/
def accumulatedErrors (branch : Fin 5 → Except String (Fin 3 → ℚ)) :
    List String :=
  branchErrorMsgs branch 0 ++ branchErrorMsgs branch 1 ++
    branchErrorMsgs branch 2 ++ branchErrorMsgs branch 3 ++
    branchErrorMsgs branch 4

/-- The final renormalisation: `if global_weights:` divide every value by
the total. -/
def normalizeGlobalWeights (gw : List (String × ℚ)) : List (String × ℚ) :=
  if gw.isEmpty then gw
  else
    let total := (gw.map Prod.snd).sum
    gw.map fun p => (p.1, p.2 / total)

/-- The `results['global_weights']` map produced by
`calculate_primary_weights`, as a function of the per-branch outcomes. -/
def calculate_primary_weights_global (primary : Fin 5 → ℚ)
    (branch : Fin 5 → Except String (Fin 3 → ℚ)) : List (String × ℚ) :=
  normalizeGlobalWeights (globalWeightsRaw primary branch)

/-- Concrete top-level weight vector used as a witness fixture. -/
def c5PrimaryW : Fin 5 → ℚ := fun _ => 1 / 5

/-- Concrete branch outcomes used as a witness fixture: branch `C3`
failed to load, the other four solved to `(1/2, 1/3, 1/6)`. -/
def c5BranchW : Fin 5 → Except String (Fin 3 → ℚ) := fun i =>
  if i = 2 then Except.error "matrix file missing"
  else Except.ok fun k => if k = 0 then 1 / 2 else if k = 1 then 1 / 3 else 1 / 6

/-! ## TOPSIS (`modules/topsis_module.py`, `utils/normalization.py`)

The decision matrix is `Matrix (Fin (m+1)) (Fin (n+1)) ℝ`: the
alternative and indicator axes are nonempty, which the input validation
(`m ≥ 2`, `n ≥ 2`) guarantees for every input `topsis_rank` processes. -/

/-- The `epsilon = 1e-12` of `vector_normalize`. -/
noncomputable def npEps : ℝ := 1 / 10 ^ 12

/-- The `1e-15` threshold on the `Ci` denominator in `topsis_rank`. -/
noncomputable def ciEps : ℝ := 1 / 10 ^ 15

/-- Per-column tag, `'benefit'` or `'cost'`. -/
inductive IndicatorType where
  | benefit
  | cost
  deriving DecidableEq, Repr

/-- The epsilon substitution of `vector_normalize`:
`decision_matrix[np.abs(decision_matrix) < epsilon] = epsilon`. -/
noncomputable def clampSmall (x : ℝ) : ℝ := if |x| < npEps then npEps else x

/-- The clamped copy of the matrix that `vector_normalize` builds before
computing norms. -/
noncomputable def clampedMatrix {m n : ℕ} (X : Matrix (Fin (m+1)) (Fin (n+1)) ℝ) :
    Matrix (Fin (m+1)) (Fin (n+1)) ℝ :=
  fun i j => clampSmall (X i j)

/-- Euclidean norm of column `j`, `np.linalg.norm(·, axis=0)`. -/
noncomputable def columnNorm {m n : ℕ} (X : Matrix (Fin (m+1)) (Fin (n+1)) ℝ)
    (j : Fin (n+1)) : ℝ :=
  Real.sqrt (∑ i, (X i j) ^ 2)

/-- Shallow embedding of `vector_normalize(decision_matrix, axis=0)`:
clamp small-magnitude entries to `epsilon`, then divide each entry by its
column's Euclidean norm. -/
noncomputable def vector_normalize {m n : ℕ}
    (X : Matrix (Fin (m+1)) (Fin (n+1)) ℝ) :
    Matrix (Fin (m+1)) (Fin (n+1)) ℝ :=
  fun i j => clampedMatrix X i j / columnNorm (clampedMatrix X) j

/-- Step 2 of `topsis_rank`: `weighted_matrix = normalized_matrix * weights`
(column-wise broadcast). -/
noncomputable def weighted_matrix {m n : ℕ}
    (X : Matrix (Fin (m+1)) (Fin (n+1)) ℝ) (w : Fin (n+1) → ℝ) :
    Matrix (Fin (m+1)) (Fin (n+1)) ℝ :=
  fun i j => vector_normalize X i j * w j

/-- The PIS of `identify_ideal_solutions`: per column, the max of the
weighted column for a benefit indicator, the min for a cost indicator. -/
noncomputable def identify_PIS {m n : ℕ}
    (W : Matrix (Fin (m+1)) (Fin (n+1)) ℝ)
    (types : Fin (n+1) → IndicatorType) (j : Fin (n+1)) : ℝ :=
  if types j = IndicatorType.benefit then
    Finset.univ.sup' Finset.univ_nonempty fun i => W i j
  else Finset.univ.inf' Finset.univ_nonempty fun i => W i j

/-- The NIS of `identify_ideal_solutions`: min for benefit, max for cost. -/
noncomputable def identify_NIS {m n : ℕ}
    (W : Matrix (Fin (m+1)) (Fin (n+1)) ℝ)
    (types : Fin (n+1) → IndicatorType) (j : Fin (n+1)) : ℝ :=
  if types j = IndicatorType.benefit then
    Finset.univ.inf' Finset.univ_nonempty fun i => W i j
  else Finset.univ.sup' Finset.univ_nonempty fun i => W i j

/-- `D_plus[i] = np.linalg.norm(weighted[i,:] - PIS)`. -/
noncomputable def D_plus {m n : ℕ} (X : Matrix (Fin (m+1)) (Fin (n+1)) ℝ)
    (w : Fin (n+1) → ℝ) (types : Fin (n+1) → IndicatorType)
    (i : Fin (m+1)) : ℝ :=
  Real.sqrt (∑ j, (weighted_matrix X w i j -
    identify_PIS (weighted_matrix X w) types j) ^ 2)

/-- `D_minus[i] = np.linalg.norm(weighted[i,:] - NIS)`. -/
noncomputable def D_minus {m n : ℕ} (X : Matrix (Fin (m+1)) (Fin (n+1)) ℝ)
    (w : Fin (n+1) → ℝ) (types : Fin (n+1) → IndicatorType)
    (i : Fin (m+1)) : ℝ :=
  Real.sqrt (∑ j, (weighted_matrix X w i j -
    identify_NIS (weighted_matrix X w) types j) ^ 2)

/-- The denominator `D_plus + D_minus` of the closeness coefficient. -/
noncomputable def ciDenominator {m n : ℕ}
    (X : Matrix (Fin (m+1)) (Fin (n+1)) ℝ) (w : Fin (n+1) → ℝ)
    (types : Fin (n+1) → IndicatorType) (i : Fin (m+1)) : ℝ :=
  D_plus X w types i + D_minus X w types i

/-- Step 5 of `topsis_rank`: the masked assignment fills
`Ci = D_minus / (D_plus + D_minus)` where the denominator is at least
`1e-15` and `Ci = 0.5` where it is below. -/
noncomputable def topsis_Ci {m n : ℕ}
    (X : Matrix (Fin (m+1)) (Fin (n+1)) ℝ) (w : Fin (n+1) → ℝ)
    (types : Fin (n+1) → IndicatorType) (i : Fin (m+1)) : ℝ :=
  if ciDenominator X w types i < ciEps then 1 / 2
  else D_minus X w types i / ciDenominator X w types i

/-- Number of alternatives strictly before `i` in the stable ascending
order on `(Ci value, original index)`.  `np.argsort` sorts ascending and
keeps the original order of equal keys (numpy's introsort resolves the
small partitions, and in particular every array shorter than 16 entries,
by a stable insertion sort), so this is the position of `i` in
`np.argsort(Ci)`, i.e. the value `np.argsort(Ci).argsort()[i]`. -/
noncomputable def belowCount {M : ℕ} (c : Fin M → ℝ) (i : Fin M) : ℕ :=
  (Finset.univ.filter fun k => c k < c i ∨ (c k = c i ∧ k < i)).card

/-- Step 6 of `topsis_rank`:
`rankings = len(Ci) - np.argsort(Ci).argsort()`. -/
noncomputable def rankOf {M : ℕ} (c : Fin M → ℝ) (i : Fin M) : ℕ :=
  M - belowCount c i

/-- The `rankings` array returned by `topsis_rank`. -/
noncomputable def topsis_rankings {m n : ℕ}
    (X : Matrix (Fin (m+1)) (Fin (n+1)) ℝ) (w : Fin (n+1) → ℝ)
    (types : Fin (n+1) → IndicatorType) (i : Fin (m+1)) : ℕ :=
  rankOf (topsis_Ci X w types) i

/-- Concrete decision matrix used as the scale-invariance
counterexample fixture: its first column sits just above the `1e-12`
substitution threshold, its second column is ordinary-sized. -/
noncomputable def c9X : Matrix (Fin (1+1)) (Fin (1+1)) ℝ :=
  !![3 / 10 ^ 12, 4; 4 / 10 ^ 12, 3]

/-- The fixture matrix scaled elementwise by the positive constant
`1/4`, which pushes the entry `3e-12` below the substitution
threshold. -/
noncomputable def c9Xs : Matrix (Fin (1+1)) (Fin (1+1)) ℝ :=
  fun i j => (1 / 4 : ℝ) * c9X i j

/-- Weight vector of the counterexample fixture. -/
noncomputable def c9W : Fin (1+1) → ℝ := ![9 / 10, 1 / 10]

/-- Indicator types of the counterexample fixture. -/
def c9T : Fin (1+1) → IndicatorType := fun _ => IndicatorType.benefit

/-! ## Theorems -/

/-- Dividing every element of a list by a constant divides the sum. -/
theorem sum_map_div_eq (l : List ℚ) (c : ℚ) :
    (l.map fun x => x / c).sum = l.sum / c := by
  induction l with
  | nil => simp
  | cons a t ih => simp [ih, add_div]

/-- A dictionary lookup whose key differs from every key of the
dictionary returns the default. -/
theorem dictGet_eq_default (d : List (String × ℚ)) (k : String) (dflt : ℚ)
    (h : ∀ p ∈ d, p.1 ≠ k) : dictGet d k dflt = dflt := by
  induction d with
  | nil => rfl
  | cons p rest ih =>
      rw [dictGet, if_neg (h p (List.mem_cons_self p rest))]
      exact ih fun q hq => h q (List.mem_cons_of_mem p hq)

/-- C10: `fuzzy_evaluate` reads only the four fixed linguistic terms from
the assessments dictionary; a non-empty assessments dictionary whose
(positive) counts all sit on other keys therefore fails with the
zero-total `FCEError` even though the input is non-empty and its counts
are positive. -/
theorem C10_unknown_keys_zero_total
    (assessments scale : List (String × ℚ)) (vm : Bool) (tol : ℚ)
    (ha : assessments ≠ []) (hs : scale ≠ [])
    (hkeys : ∀ p ∈ assessments, p.1 ∉ linguisticTerms ∧ 0 < p.2) :
    fuzzy_evaluate assessments scale vm tol = Except.error zeroTotalMsg := by
  have hget : ∀ t ∈ linguisticTerms, dictGet assessments t 0 = 0 := by
    intro t ht
    refine dictGet_eq_default _ _ _ fun p hp h => ?_
    exact (hkeys p hp).1 (h ▸ ht)
  have hc1 := hget "差" (by simp [linguisticTerms])
  have hc2 := hget "中" (by simp [linguisticTerms])
  have hc3 := hget "良" (by simp [linguisticTerms])
  have hc4 := hget "优" (by simp [linguisticTerms])
  have hcounts : assessmentCounts assessments = [0, 0, 0, 0] := by
    simp [assessmentCounts, linguisticTerms, hc1, hc2, hc3, hc4]
  have htot0 : totalExperts assessments = 0 := by
    rw [totalExperts, hcounts]; simp
  unfold fuzzy_evaluate
  rw [if_neg ha, if_neg hs, hcounts]
  norm_num [htot0]

/-- Witness for C10 at a concrete single-key dictionary whose key is not
one of the four linguistic terms. -/
theorem C10_witness :
    ([(("excellent" : String), (3 : ℚ))] ≠ ([] : List (String × ℚ))) ∧
    fuzzy_evaluate [("excellent", 3)] [("差", 1/4)] true (1/1000) =
      Except.error zeroTotalMsg := by
  refine ⟨by decide, ?_⟩
  exact C10_unknown_keys_zero_total _ _ _ _ (by decide) (by decide) (by decide)

/-- C8: on a total count `> 0` with non-negative counts over the fixed
4-term scale, `fuzzy_evaluate` succeeds, the membership vector sums to
`1.0` (exactly, hence within any non-negative tolerance), and the
defuzzified score lies between the smallest and the largest of the four
scale values. -/
theorem C8_fuzzy_evaluate_bounds
    (assessments scale : List (String × ℚ)) (vm : Bool) (tol : ℚ)
    (ha : assessments ≠ []) (hs : scale ≠ [])
    (hcnt : ∀ t ∈ linguisticTerms, 0 ≤ dictGet assessments t 0)
    (htot : 0 < totalExperts assessments) (htol : 0 ≤ tol) :
    ∃ r, fuzzy_evaluate assessments scale vm tol = Except.ok r ∧
      r.membership_vector.sum = 1 ∧
      scaleMin scale ≤ r.fuzzy_score ∧ r.fuzzy_score ≤ scaleMax scale := by
  have hT : totalExperts assessments ≠ 0 := htot.ne'
  have hnoneg :
      ((assessmentCounts assessments).any fun c => decide (c < 0)) = false := by
    rw [List.any_eq_false]
    intro c hc
    simp only [assessmentCounts, List.mem_map] at hc
    obtain ⟨t, ht, rfl⟩ := hc
    simpa using hcnt t ht
  have hsum :
      ((assessmentCounts assessments).map
        fun x => x / totalExperts assessments).sum = 1 := by
    rw [sum_map_div_eq]; exact div_self hT
  have heval : fuzzy_evaluate assessments scale vm tol = Except.ok
      { membership_vector := (assessmentCounts assessments).map
          fun x => x / totalExperts assessments
        fuzzy_score := listDot
          ((assessmentCounts assessments).map
            fun x => x / totalExperts assessments) (scoreValues scale)
        total_experts := totalExperts assessments
        valid := true } := by
    unfold fuzzy_evaluate
    rw [if_neg ha, if_neg hs]
    rw [hnoneg]
    simp only [Bool.false_eq_true, if_false]
    rw [if_neg hT, if_neg]
    · congr 1
      · rw [hsum]
        simpa using decide_eq_true htol
    · rw [hsum]
      rintro ⟨-, hlt⟩
      simp at hlt
      exact absurd hlt (not_lt.mpr htol)
  have hcounts : assessmentCounts assessments =
      [dictGet assessments "差" 0, dictGet assessments "中" 0,
        dictGet assessments "良" 0, dictGet assessments "优" 0] := by
    simp [assessmentCounts, linguisticTerms]
  have hscores : scoreValues scale =
      [dictGet scale "差" 0, dictGet scale "中" 0,
        dictGet scale "良" 0, dictGet scale "优" 0] := by
    simp [scoreValues, linguisticTerms]
  have hc0 := hcnt "差" (by simp [linguisticTerms])
  have hc1 := hcnt "中" (by simp [linguisticTerms])
  have hc2 := hcnt "良" (by simp [linguisticTerms])
  have hc3 := hcnt "优" (by simp [linguisticTerms])
  have hTsum : totalExperts assessments =
      dictGet assessments "差" 0 + dictGet assessments "中" 0 +
        dictGet assessments "良" 0 + dictGet assessments "优" 0 := by
    rw [totalExperts, hcounts]; simp; ring
  have hscore_eq : listDot
      ((assessmentCounts assessments).map
        fun x => x / totalExperts assessments) (scoreValues scale) =
      (dictGet assessments "差" 0 * dictGet scale "差" 0 +
        dictGet assessments "中" 0 * dictGet scale "中" 0 +
        dictGet assessments "良" 0 * dictGet scale "良" 0 +
        dictGet assessments "优" 0 * dictGet scale "优" 0) /
          totalExperts assessments := by
    rw [hcounts, hscores]
    simp [listDot]
    ring
  refine ⟨_, heval, hsum, ?_, ?_⟩
  · simp only
    rw [hscore_eq, le_div_iff₀ htot, hTsum]
    have hlo0 : scaleMin scale ≤ dictGet scale "差" 0 :=
      le_trans (min_le_left _ _) (min_le_left _ _)
    have hlo1 : scaleMin scale ≤ dictGet scale "中" 0 :=
      le_trans (min_le_left _ _) (min_le_right _ _)
    have hlo2 : scaleMin scale ≤ dictGet scale "良" 0 :=
      le_trans (min_le_right _ _) (min_le_left _ _)
    have hlo3 : scaleMin scale ≤ dictGet scale "优" 0 :=
      le_trans (min_le_right _ _) (min_le_right _ _)
    nlinarith [mul_nonneg hc0 (sub_nonneg.mpr hlo0),
      mul_nonneg hc1 (sub_nonneg.mpr hlo1),
      mul_nonneg hc2 (sub_nonneg.mpr hlo2),
      mul_nonneg hc3 (sub_nonneg.mpr hlo3)]
  · simp only
    rw [hscore_eq, div_le_iff₀ htot, hTsum]
    have hhi0 : dictGet scale "差" 0 ≤ scaleMax scale :=
      le_trans (le_max_left _ _) (le_max_left _ _)
    have hhi1 : dictGet scale "中" 0 ≤ scaleMax scale :=
      le_trans (le_max_right _ _) (le_max_left _ _)
    have hhi2 : dictGet scale "良" 0 ≤ scaleMax scale :=
      le_trans (le_max_left _ _) (le_max_right _ _)
    have hhi3 : dictGet scale "优" 0 ≤ scaleMax scale :=
      le_trans (le_max_right _ _) (le_max_right _ _)
    nlinarith [mul_nonneg hc0 (sub_nonneg.mpr hhi0),
      mul_nonneg hc1 (sub_nonneg.mpr hhi1),
      mul_nonneg hc2 (sub_nonneg.mpr hhi2),
      mul_nonneg hc3 (sub_nonneg.mpr hhi3)]

/-- Witness for C8 at the Example C input of the specification:
counts `{差:0, 中:1, 良:3, 优:1}` against the quartile scale. -/
theorem C8_witness :
    (0 : ℚ) < totalExperts [("差", 0), ("中", 1), ("良", 3), ("优", 1)] ∧
    ∃ r, fuzzy_evaluate [("差", 0), ("中", 1), ("良", 3), ("优", 1)]
        [("差", 1/4), ("中", 1/2), ("良", 3/4), ("优", 1)] true (1/1000) =
        Except.ok r ∧
      r.membership_vector.sum = 1 ∧
      scaleMin [("差", 1/4), ("中", 1/2), ("良", 3/4), ("优", 1)] ≤
        r.fuzzy_score ∧
      r.fuzzy_score ≤
        scaleMax [("差", 1/4), ("中", 1/2), ("良", 3/4), ("优", 1)] := by
  have htot : (0 : ℚ) <
      totalExperts [("差", 0), ("中", 1), ("良", 3), ("优", 1)] := by
    simp [totalExperts, assessmentCounts, linguisticTerms, dictGet]
    norm_num
  refine ⟨htot, ?_⟩
  refine C8_fuzzy_evaluate_bounds _ _ _ _ (by decide) (by decide) ?_ htot
    (by norm_num)
  intro t ht
  fin_cases ht <;> simp [dictGet]

/-- C1 (counterexample): the claim says non-positive structural failures
are never tolerated, but the matrix `[[1,-2],[-1,1]]` — which fails the
positivity check — is tolerated by `calculate_weights` with
`validate_consistency=False`, because its error-message list also
contains the reciprocal-property message and the tolerance test is a
substring test on the whole list. -/
theorem C1_counterexample :
    (validate_judgment_matrix [[(1 : ℚ), -2], [-1, 1]] ahpTol).positive_elements
        = false ∧
    (validate_judgment_matrix [[(1 : ℚ), -2], [-1, 1]] ahpTol).is_valid
        = false ∧
    calculate_weights_check [[(1 : ℚ), -2], [-1, 1]] false ahpTol = none := by
  refine ⟨?_, ?_, ?_⟩ <;>
    norm_num [calculate_weights_check, validate_judgment_matrix,
      isSquareMatrix, matrixSize, entryAt, allcloseOne, mentionsReciprocal,
      ahpTol, npRtol, positiveMsg, diagonalMsg, reciprocalMsg,
      List.range_succ]

/-- C1 (amended): with `validate_consistency=False` and a non-empty
matrix, `calculate_weights` proceeds without raising iff validation
passes or the error-message list contains the reciprocal-property
message; a non-square matrix (whose early-returned message list is just
the squareness message) still raises. -/
theorem C1_reciprocal_tolerance_amended (A : List (List ℚ))
    (hA : matrixSize A ≠ 0) :
    (calculate_weights_check A false ahpTol = none ↔
      (validate_judgment_matrix A ahpTol).is_valid = true ∨
        mentionsReciprocal
          (validate_judgment_matrix A ahpTol).error_messages = true) ∧
    (isSquareMatrix A = false →
      calculate_weights_check A false ahpTol = some invalidMatrixMsg) := by
  constructor
  · unfold calculate_weights_check
    rw [if_neg hA]
    cases hv : (validate_judgment_matrix A ahpTol).is_valid with
    | true => simp [hv]
    | false =>
        cases hm :
            mentionsReciprocal (validate_judgment_matrix A ahpTol).error_messages
          with
        | true => simp [hv, hm]
        | false => simp [hv, hm]
  · intro hsq
    have hval : validate_judgment_matrix A ahpTol =
        { is_square := false, positive_elements := false
          diagonal_ones := false, reciprocal_property := false
          is_valid := false, error_messages := [squareMsg] } := by
      unfold validate_judgment_matrix
      rw [if_pos]
      rw [hsq]
      simp
    unfold calculate_weights_check
    rw [if_neg hA, hval]
    have hm : mentionsReciprocal [squareMsg] = false := by decide
    simp [hm]

/-- Witness for the amended C1 at the concrete matrix `[[1,-2],[-1,1]]`. -/
theorem C1_amended_witness :
    matrixSize [[(1 : ℚ), -2], [-1, 1]] ≠ 0 ∧
    ((calculate_weights_check [[(1 : ℚ), -2], [-1, 1]] false ahpTol = none ↔
      (validate_judgment_matrix [[(1 : ℚ), -2], [-1, 1]] ahpTol).is_valid
          = true ∨
        mentionsReciprocal
          (validate_judgment_matrix
            [[(1 : ℚ), -2], [-1, 1]] ahpTol).error_messages = true) ∧
      (isSquareMatrix [[(1 : ℚ), -2], [-1, 1]] = false →
        calculate_weights_check [[(1 : ℚ), -2], [-1, 1]] false ahpTol =
          some invalidMatrixMsg)) :=
  ⟨by decide, C1_reciprocal_tolerance_amended _ (by decide)⟩

/-- C6: the identity matrix `np.eye(2) = [[1,0],[0,1]]` is square but its
zero off-diagonal entries fail the positivity check, so
`calculate_weights` raises `JudgmentMatrixError` instead of returning
`CR ≈ 0` and weights `1/n` as the claim (and the repository's own
property test `test_identity_matrix_properties`) expects. -/
theorem C6_identity_matrix_rejected :
    calculate_weights_check [[(1 : ℚ), 0], [0, 1]] true ahpTol =
        some invalidMatrixMsg ∧
    (validate_judgment_matrix [[(1 : ℚ), 0], [0, 1]] ahpTol).is_square
        = true ∧
    (validate_judgment_matrix [[(1 : ℚ), 0], [0, 1]] ahpTol).positive_elements
        = false := by
  refine ⟨?_, ?_, ?_⟩ <;>
    norm_num [calculate_weights_check, validate_judgment_matrix,
      isSquareMatrix, matrixSize, entryAt, allcloseOne, mentionsReciprocal,
      ahpTol, npRtol, positiveMsg, diagonalMsg, reciprocalMsg,
      List.range_succ]

/-- Membership in the accumulated raw global weights is membership in
one branch's leaf list. -/
theorem mem_globalWeightsRaw {primary : Fin 5 → ℚ}
    {branch : Fin 5 → Except String (Fin 3 → ℚ)} {p : String × ℚ} :
    p ∈ globalWeightsRaw primary branch ↔
      ∃ k : Fin 5, p ∈ branchLeaves primary branch k := by
  unfold globalWeightsRaw
  simp only [List.mem_append]
  constructor
  · rintro ((((h | h) | h) | h) | h)
    exacts [⟨0, h⟩, ⟨1, h⟩, ⟨2, h⟩, ⟨3, h⟩, ⟨4, h⟩]
  · rintro ⟨k, hk⟩
    fin_cases k <;> tauto

/-- The fifteen leaf identifiers are pairwise disjoint across branches. -/
theorem secondaryMapping_disjoint :
    ∀ j k : Fin 5, j ≠ k → ∀ s ∈ secondaryMapping k, s ∉ secondaryMapping j :=
  by decide

/-- Each of the three leaf identifiers a branch emits belongs to that
branch's `secondary_mapping` entry. -/
theorem secondaryMapping_getD_mem :
    ∀ k : Fin 5, (secondaryMapping k).getD 0 "" ∈ secondaryMapping k ∧
      (secondaryMapping k).getD 1 "" ∈ secondaryMapping k ∧
      (secondaryMapping k).getD 2 "" ∈ secondaryMapping k := by decide

/-- C5: when branch `j` fails to load or validate, its three leaves are
absent from the returned global weights, its error message is recorded,
every surviving branch's leaves are present with their renormalised
values, and the surviving global weights are renormalised to sum
exactly `1.0`. -/
theorem C5_branch_failure_partial (primary : Fin 5 → ℚ)
    (branch : Fin 5 → Except String (Fin 3 → ℚ)) (j : Fin 5) (e : String)
    (hj : branch j = Except.error e)
    (htot : 0 < ((globalWeightsRaw primary branch).map Prod.snd).sum) :
    (∀ p ∈ calculate_primary_weights_global primary branch,
        p.1 ∉ secondaryMapping j) ∧
    ("Error processing " ++ capabilityName j ++ " secondary indicators: "
        ++ e) ∈ accumulatedErrors branch ∧
    (∀ k, ∀ w : Fin 3 → ℚ, branch k = Except.ok w → ∀ t : Fin 3,
      ((secondaryMapping k).getD (t : ℕ) "",
        primary k * w t /
          ((globalWeightsRaw primary branch).map Prod.snd).sum) ∈
        calculate_primary_weights_global primary branch) ∧
    ((calculate_primary_weights_global primary branch).map Prod.snd).sum
        = 1 := by
  set raw := globalWeightsRaw primary branch with hraw
  set T := (raw.map Prod.snd).sum with hT
  have hne : raw.isEmpty = false := by
    cases h : raw with
    | nil =>
        rw [hT, h] at htot
        simp at htot
    | cons a l => rfl
  have hres : calculate_primary_weights_global primary branch =
      raw.map fun p => (p.1, p.2 / T) := by
    unfold calculate_primary_weights_global normalizeGlobalWeights
    rw [← hraw, hne]
    simp [hT]
  refine ⟨?_, ?_, ?_, ?_⟩
  · intro p hp
    rw [hres, List.mem_map] at hp
    obtain ⟨q, hq, rfl⟩ := hp
    obtain ⟨k, hk⟩ := mem_globalWeightsRaw.mp hq
    cases hbk : branch k with
    | error e2 => simp [branchLeaves, hbk] at hk
    | ok w =>
        have hkj : k ≠ j := by
          rintro rfl
          rw [hj] at hbk
          exact Except.noConfusion hbk
        simp only [branchLeaves, hbk, List.mem_cons, List.not_mem_nil,
          or_false] at hk
        rcases hk with rfl | rfl | rfl
        · exact secondaryMapping_disjoint j k (Ne.symm hkj) _
            (secondaryMapping_getD_mem k).1
        · exact secondaryMapping_disjoint j k (Ne.symm hkj) _
            (secondaryMapping_getD_mem k).2.1
        · exact secondaryMapping_disjoint j k (Ne.symm hkj) _
            (secondaryMapping_getD_mem k).2.2
  · have hmem : ("Error processing " ++ capabilityName j ++
        " secondary indicators: " ++ e) ∈ branchErrorMsgs branch j := by
      simp [branchErrorMsgs, hj]
    unfold accumulatedErrors
    fin_cases j <;> simp only [List.mem_append] <;> tauto
  · intro k w hk t
    rw [hres]
    refine List.mem_map.mpr
      ⟨((secondaryMapping k).getD (t : ℕ) "", primary k * w t), ?_, rfl⟩
    refine mem_globalWeightsRaw.mpr ⟨k, ?_⟩
    fin_cases t <;> simp [branchLeaves, hk]
  · rw [hres]
    have h1 : ((raw.map fun p => (p.1, p.2 / T)).map Prod.snd).sum =
        ((raw.map Prod.snd).map fun x => x / T).sum := by
      rw [List.map_map, List.map_map]
      rfl
    rw [h1, sum_map_div_eq, ← hT]
    exact div_self htot.ne'

/-- Witness for C5 at the fixture where branch `C3` fails and the other
four branches solve to `(1/2, 1/3, 1/6)`. -/
theorem C5_witness :
    c5BranchW 2 = Except.error "matrix file missing" ∧
    0 < ((globalWeightsRaw c5PrimaryW c5BranchW).map Prod.snd).sum ∧
    (∀ p ∈ calculate_primary_weights_global c5PrimaryW c5BranchW,
        p.1 ∉ secondaryMapping 2) ∧
    ("Error processing " ++ capabilityName 2 ++ " secondary indicators: "
        ++ "matrix file missing") ∈ accumulatedErrors c5BranchW ∧
    ((calculate_primary_weights_global c5PrimaryW c5BranchW).map
        Prod.snd).sum = 1 := by
  have htot :
      0 < ((globalWeightsRaw c5PrimaryW c5BranchW).map Prod.snd).sum := by
    simp [globalWeightsRaw, branchLeaves, c5BranchW, c5PrimaryW,
      secondaryMapping]
    norm_num
  obtain ⟨h1, h2, h3, h4⟩ := C5_branch_failure_partial c5PrimaryW c5BranchW 2
    "matrix file missing" rfl htot
  exact ⟨rfl, htot, h1, h2, h4⟩

/-- An index that is strictly earlier in the stable ascending order has
strictly fewer predecessors. -/
theorem belowCount_lt {M : ℕ} (c : Fin M → ℝ) {i j : Fin M}
    (hij : c i < c j ∨ (c i = c j ∧ i < j)) :
    belowCount c i < belowCount c j := by
  unfold belowCount
  apply Finset.card_lt_card
  have hsub : (Finset.univ.filter fun k => c k < c i ∨ (c k = c i ∧ k < i)) ⊆
      Finset.univ.filter fun k => c k < c j ∨ (c k = c j ∧ k < j) := by
    intro k hk
    rw [Finset.mem_filter] at hk ⊢
    refine ⟨Finset.mem_univ k, ?_⟩
    rcases hk.2 with h1 | ⟨h1, h2⟩ <;> rcases hij with h3 | ⟨h3, h4⟩
    · exact Or.inl (h1.trans h3)
    · exact Or.inl (by rw [← h3]; exact h1)
    · exact Or.inl (by rw [h1]; exact h3)
    · exact Or.inr ⟨h1.trans h3, h2.trans h4⟩
  rw [Finset.ssubset_iff_of_subset hsub]
  refine ⟨i, ?_, ?_⟩
  · rw [Finset.mem_filter]
    exact ⟨Finset.mem_univ i, hij⟩
  · rw [Finset.mem_filter]
    rintro ⟨-, h1 | ⟨-, h2⟩⟩
    · exact lt_irrefl _ h1
    · exact lt_irrefl _ h2

/-- No index has more than `M - 1` predecessors. -/
theorem belowCount_le {M : ℕ} (c : Fin M → ℝ) (i : Fin M) :
    belowCount c i ≤ M - 1 := by
  unfold belowCount
  have hsub : (Finset.univ.filter fun k => c k < c i ∨ (c k = c i ∧ k < i)) ⊆
      Finset.univ.erase i := by
    intro k hk
    rw [Finset.mem_filter] at hk
    rw [Finset.mem_erase]
    refine ⟨?_, Finset.mem_univ k⟩
    rintro rfl
    rcases hk.2 with h1 | ⟨-, h2⟩
    · exact lt_irrefl _ h1
    · exact lt_irrefl _ h2
  calc (Finset.univ.filter fun k => c k < c i ∨ (c k = c i ∧ k < i)).card
      ≤ (Finset.univ.erase i).card := Finset.card_le_card hsub
    _ = M - 1 := by
        rw [Finset.card_erase_of_mem (Finset.mem_univ i), Finset.card_univ,
          Fintype.card_fin]

/-- An index that is strictly earlier in the stable ascending order
receives the strictly larger (worse) rank number. -/
theorem rankOf_lt {M : ℕ} (c : Fin M → ℝ) {i j : Fin M}
    (hij : c i < c j ∨ (c i = c j ∧ i < j)) :
    rankOf c j < rankOf c i := by
  have h1 := belowCount_lt c hij
  have h2 := belowCount_le c j
  have h3 : 0 < M := i.pos
  unfold rankOf
  omega

/-- The ranks `M - belowCount` are exactly the positions `1..M`. -/
theorem rankOf_image {M : ℕ} (c : Fin M → ℝ) :
    Finset.image (rankOf c) Finset.univ = Finset.Icc 1 M := by
  have hinj : Function.Injective (rankOf c) := by
    intro i j hEq
    by_contra hne
    rcases lt_trichotomy (c i) (c j) with h | h | h
    · exact absurd hEq (Nat.ne_of_gt (rankOf_lt c (Or.inl h)))
    · rcases lt_or_gt_of_ne (fun he : i = j => hne he) with h2 | h2
      · exact absurd hEq (Nat.ne_of_gt (rankOf_lt c (Or.inr ⟨h, h2⟩)))
      · exact absurd hEq (Nat.ne_of_lt (rankOf_lt c (Or.inr ⟨h.symm, h2⟩)))
    · exact absurd hEq (Nat.ne_of_lt (rankOf_lt c (Or.inl h)))
  have hsub : Finset.image (rankOf c) Finset.univ ⊆ Finset.Icc 1 M := by
    intro r hr
    rw [Finset.mem_image] at hr
    obtain ⟨i, -, rfl⟩ := hr
    rw [Finset.mem_Icc]
    have h1 := belowCount_le c i
    have h2 : 0 < M := i.pos
    unfold rankOf
    omega
  apply Finset.eq_of_subset_of_card_le hsub
  rw [Nat.card_Icc, Finset.card_image_of_injective _ hinj, Finset.card_univ,
    Fintype.card_fin]
  omega

/-- C3: for every decision matrix, weight vector and indicator-type
vector the TOPSIS result satisfies the post-computation invariants: every
closeness coefficient lies in `[0,1]`, the rankings are exactly the
positions `1..m`, and a strictly larger closeness coefficient receives a
strictly smaller (better) rank. -/
theorem C3_invariants {m n : ℕ} (X : Matrix (Fin (m+1)) (Fin (n+1)) ℝ)
    (w : Fin (n+1) → ℝ) (types : Fin (n+1) → IndicatorType) :
    (∀ i, 0 ≤ topsis_Ci X w types i ∧ topsis_Ci X w types i ≤ 1) ∧
    Finset.image (topsis_rankings X w types) Finset.univ =
      Finset.Icc 1 (m + 1) ∧
    (∀ i j, topsis_Ci X w types j < topsis_Ci X w types i →
      topsis_rankings X w types i < topsis_rankings X w types j) := by
  refine ⟨?_, ?_, ?_⟩
  · intro i
    unfold topsis_Ci
    by_cases h : ciDenominator X w types i < ciEps
    · rw [if_pos h]
      norm_num
    · rw [if_neg h]
      have hε : (0 : ℝ) < ciEps := by norm_num [ciEps]
      have hd : 0 < ciDenominator X w types i := lt_of_lt_of_le hε (not_lt.mp h)
      have hm : 0 ≤ D_minus X w types i := Real.sqrt_nonneg _
      have hp : 0 ≤ D_plus X w types i := Real.sqrt_nonneg _
      constructor
      · exact div_nonneg hm hd.le
      · rw [div_le_one hd]
        unfold ciDenominator
        exact le_add_of_nonneg_left hp
  · unfold topsis_rankings
    exact rankOf_image _
  · intro i j h
    unfold topsis_rankings
    exact rankOf_lt _ (Or.inl h)

/-- C2 (amended): when two alternatives have exactly equal closeness
coefficients, the double stable argsort gives the **later** original
index the numerically smaller (better) rank, and the earlier index the
worse rank. -/
theorem C2_tie_break_amended {m n : ℕ} (X : Matrix (Fin (m+1)) (Fin (n+1)) ℝ)
    (w : Fin (n+1) → ℝ) (types : Fin (n+1) → IndicatorType)
    {i j : Fin (m+1)} (hij : i < j)
    (hc : topsis_Ci X w types i = topsis_Ci X w types j) :
    topsis_rankings X w types j < topsis_rankings X w types i := by
  unfold topsis_rankings
  exact rankOf_lt _ (Or.inr ⟨hc, hij⟩)

/-- C4: the closeness coefficient is `0.5` exactly when the denominator
`D_plus + D_minus` is below `1e-15`, and the quotient
`D_minus / (D_plus + D_minus)` otherwise. -/
theorem C4_closeness_formula {m n : ℕ} (X : Matrix (Fin (m+1)) (Fin (n+1)) ℝ)
    (w : Fin (n+1) → ℝ) (types : Fin (n+1) → IndicatorType) (i : Fin (m+1)) :
    (ciDenominator X w types i < ciEps → topsis_Ci X w types i = 1 / 2) ∧
    (ciEps ≤ ciDenominator X w types i →
      topsis_Ci X w types i =
        D_minus X w types i / ciDenominator X w types i) := by
  constructor <;> intro h <;> unfold topsis_Ci
  · rw [if_pos h]
  · rw [if_neg (not_lt.mpr h)]

/-- On a constant decision matrix every alternative coincides with both
ideal solutions, so both distances vanish, the denominator is zero, and
the degenerate-case branch sets every closeness coefficient to `0.5`. -/
theorem constMatrix_Ci {m n : ℕ} (a : ℝ)
    (w : Fin (n+1) → ℝ) (types : Fin (n+1) → IndicatorType) (i : Fin (m+1)) :
    ciDenominator (fun _ _ => a) w types i = 0 ∧
    topsis_Ci (fun _ _ => a) w types i = 1 / 2 := by
  have hPISeq : ∀ j, identify_PIS (weighted_matrix (fun _ _ => a : Matrix (Fin (m+1)) (Fin (n+1)) ℝ) w) types j =
      weighted_matrix (fun _ _ => a : Matrix (Fin (m+1)) (Fin (n+1)) ℝ) w i j := by
    intro j
    unfold identify_PIS
    by_cases h : types j = IndicatorType.benefit
    · rw [if_pos h]
      exact le_antisymm (Finset.sup'_le _ _ fun b _ => le_of_eq rfl)
        (Finset.le_sup' (fun b => weighted_matrix (fun _ _ => a : Matrix (Fin (m+1)) (Fin (n+1)) ℝ) w b j) (Finset.mem_univ i))
    · rw [if_neg h]
      exact le_antisymm (Finset.inf'_le (fun b => weighted_matrix (fun _ _ => a : Matrix (Fin (m+1)) (Fin (n+1)) ℝ) w b j) (Finset.mem_univ i))
        (Finset.le_inf' _ _ fun b _ => le_of_eq rfl)
  have hNISeq : ∀ j, identify_NIS (weighted_matrix (fun _ _ => a : Matrix (Fin (m+1)) (Fin (n+1)) ℝ) w) types j =
      weighted_matrix (fun _ _ => a : Matrix (Fin (m+1)) (Fin (n+1)) ℝ) w i j := by
    intro j
    unfold identify_NIS
    by_cases h : types j = IndicatorType.benefit
    · rw [if_pos h]
      exact le_antisymm (Finset.inf'_le (fun b => weighted_matrix (fun _ _ => a : Matrix (Fin (m+1)) (Fin (n+1)) ℝ) w b j) (Finset.mem_univ i))
        (Finset.le_inf' _ _ fun b _ => le_of_eq rfl)
    · rw [if_neg h]
      exact le_antisymm (Finset.sup'_le _ _ fun b _ => le_of_eq rfl)
        (Finset.le_sup' (fun b => weighted_matrix (fun _ _ => a : Matrix (Fin (m+1)) (Fin (n+1)) ℝ) w b j) (Finset.mem_univ i))
  have hDp : D_plus (fun _ _ => a : Matrix (Fin (m+1)) (Fin (n+1)) ℝ) w types i = 0 := by
    unfold D_plus
    simp only [hPISeq, sub_self]
    simp [Real.sqrt_zero]
  have hDm : D_minus (fun _ _ => a : Matrix (Fin (m+1)) (Fin (n+1)) ℝ) w types i = 0 := by
    unfold D_minus
    simp only [hNISeq, sub_self]
    simp [Real.sqrt_zero]
  have hden : ciDenominator (fun _ _ => a : Matrix (Fin (m+1)) (Fin (n+1)) ℝ) w types i = 0 := by
    unfold ciDenominator
    rw [hDp, hDm, add_zero]
  refine ⟨hden, ?_⟩
  unfold topsis_Ci
  rw [if_pos]
  rw [hden]
  norm_num [ciEps]

/-- C2 (counterexample): on the valid input with two identical
alternatives (`[[1,1],[1,1]]`, equal weights, two benefit indicators) the
two closeness coefficients are exactly equal, yet the first-seen index 0
receives rank 2 and the later index 1 receives the better rank 1 — the
opposite of the claimed tie-break. -/
theorem C2_counterexample :
    topsis_Ci (fun _ _ => (1 : ℝ) : Matrix (Fin (1+1)) (Fin (1+1)) ℝ)
        (fun _ => 1 / 2) (fun _ => IndicatorType.benefit) 0 =
      topsis_Ci (fun _ _ => (1 : ℝ) : Matrix (Fin (1+1)) (Fin (1+1)) ℝ)
        (fun _ => 1 / 2) (fun _ => IndicatorType.benefit) 1 ∧
    topsis_rankings (fun _ _ => (1 : ℝ) : Matrix (Fin (1+1)) (Fin (1+1)) ℝ)
        (fun _ => 1 / 2) (fun _ => IndicatorType.benefit) 0 = 2 ∧
    topsis_rankings (fun _ _ => (1 : ℝ) : Matrix (Fin (1+1)) (Fin (1+1)) ℝ)
        (fun _ => 1 / 2) (fun _ => IndicatorType.benefit) 1 = 1 := by
  have hc : ∀ i, topsis_Ci
      (fun _ _ => (1 : ℝ) : Matrix (Fin (1+1)) (Fin (1+1)) ℝ)
      (fun _ => 1 / 2) (fun _ => IndicatorType.benefit) i = 1 / 2 :=
    fun i =>
      (@constMatrix_Ci 1 1 1 (fun _ => 1 / 2) (fun _ => IndicatorType.benefit)
        i).2
  have hpred : ∀ i : Fin (1+1), (Finset.univ.filter fun k : Fin (1+1) =>
      topsis_Ci (fun _ _ => (1 : ℝ) : Matrix (Fin (1+1)) (Fin (1+1)) ℝ)
          (fun _ => 1 / 2) (fun _ => IndicatorType.benefit) k <
        topsis_Ci (fun _ _ => (1 : ℝ) : Matrix (Fin (1+1)) (Fin (1+1)) ℝ)
          (fun _ => 1 / 2) (fun _ => IndicatorType.benefit) i ∨
      (topsis_Ci (fun _ _ => (1 : ℝ) : Matrix (Fin (1+1)) (Fin (1+1)) ℝ)
          (fun _ => 1 / 2) (fun _ => IndicatorType.benefit) k =
        topsis_Ci (fun _ _ => (1 : ℝ) : Matrix (Fin (1+1)) (Fin (1+1)) ℝ)
          (fun _ => 1 / 2) (fun _ => IndicatorType.benefit) i ∧ k < i)) =
      Finset.univ.filter fun k => k < i := by
    intro i
    apply Finset.filter_congr
    intro k _
    rw [hc k, hc i]
    simp
  refine ⟨(hc 0).trans (hc 1).symm, ?_, ?_⟩
  · unfold topsis_rankings rankOf belowCount
    rw [hpred 0]
    decide
  · unfold topsis_rankings rankOf belowCount
    rw [hpred 1]
    decide

/-- Witness for the amended C2 at the identical-alternatives input. -/
theorem C2_amended_witness :
    ((0 : Fin (1+1)) < 1) ∧
    topsis_Ci (fun _ _ => (1 : ℝ) : Matrix (Fin (1+1)) (Fin (1+1)) ℝ)
        (fun _ => 1 / 2) (fun _ => IndicatorType.benefit) 0 =
      topsis_Ci (fun _ _ => (1 : ℝ) : Matrix (Fin (1+1)) (Fin (1+1)) ℝ)
        (fun _ => 1 / 2) (fun _ => IndicatorType.benefit) 1 ∧
    topsis_rankings (fun _ _ => (1 : ℝ) : Matrix (Fin (1+1)) (Fin (1+1)) ℝ)
        (fun _ => 1 / 2) (fun _ => IndicatorType.benefit) 1 <
      topsis_rankings (fun _ _ => (1 : ℝ) : Matrix (Fin (1+1)) (Fin (1+1)) ℝ)
        (fun _ => 1 / 2) (fun _ => IndicatorType.benefit) 0 := by
  have h01 : topsis_Ci
      (fun _ _ => (1 : ℝ) : Matrix (Fin (1+1)) (Fin (1+1)) ℝ)
      (fun _ => 1 / 2) (fun _ => IndicatorType.benefit) 0 =
      topsis_Ci (fun _ _ => (1 : ℝ) : Matrix (Fin (1+1)) (Fin (1+1)) ℝ)
        (fun _ => 1 / 2) (fun _ => IndicatorType.benefit) 1 :=
    ((@constMatrix_Ci 1 1 1 (fun _ => 1 / 2) (fun _ => IndicatorType.benefit)
        0).2).trans
      ((@constMatrix_Ci 1 1 1 (fun _ => 1 / 2) (fun _ => IndicatorType.benefit)
        1).2).symm
  exact ⟨by decide, h01,
    C2_tie_break_amended _ _ _ (by decide) h01⟩

/-- Witness for C4 at an input whose `Ci` denominator falls below the
`1e-15` threshold (two identical alternatives), exercising the
degenerate `0.5` branch. -/
theorem C4_witness :
    ciDenominator (fun _ _ => (2 : ℝ) : Matrix (Fin (1+1)) (Fin (1+1)) ℝ)
        (fun _ => 1 / 2) (fun _ => IndicatorType.benefit) 0 < ciEps ∧
    topsis_Ci (fun _ _ => (2 : ℝ) : Matrix (Fin (1+1)) (Fin (1+1)) ℝ)
        (fun _ => 1 / 2) (fun _ => IndicatorType.benefit) 0 = 1 / 2 := by
  have h := @constMatrix_Ci 1 1 2 (fun _ => 1 / 2)
    (fun _ => IndicatorType.benefit) 0
  have hlt : ciDenominator
      (fun _ _ => (2 : ℝ) : Matrix (Fin (1+1)) (Fin (1+1)) ℝ)
      (fun _ => 1 / 2) (fun _ => IndicatorType.benefit) 0 < ciEps := by
    rw [h.1]
    norm_num [ciEps]
  exact ⟨hlt, (C4_closeness_formula _ _ _ 0).1 hlt⟩

/-- Sum over the two alternatives/indicators of a 2×2 instance. -/
theorem sum_univ_two2 (f : Fin (1+1) → ℝ) : ∑ i, f i = f 0 + f 1 :=
  Fin.sum_univ_two f

/-- Supremum over the two alternatives of a 2×2 instance. -/
theorem sup_univ_two2 (f : Fin (1+1) → ℝ) :
    Finset.univ.sup' Finset.univ_nonempty f = max (f 0) (f 1) := by
  apply le_antisymm
  · apply Finset.sup'_le
    intro b _
    fin_cases b
    · exact le_max_left _ _
    · exact le_max_right _ _
  · exact max_le (Finset.le_sup' f (Finset.mem_univ 0))
      (Finset.le_sup' f (Finset.mem_univ 1))

/-- Infimum over the two alternatives of a 2×2 instance. -/
theorem inf_univ_two2 (f : Fin (1+1) → ℝ) :
    Finset.univ.inf' Finset.univ_nonempty f = min (f 0) (f 1) := by
  apply le_antisymm
  · exact le_min (Finset.inf'_le f (Finset.mem_univ 0))
      (Finset.inf'_le f (Finset.mem_univ 1))
  · apply Finset.le_inf'
    intro b _
    fin_cases b
    · exact min_le_left _ _
    · exact min_le_right _ _

/-- C9 (amended): multiplying the decision matrix elementwise by a
positive constant leaves the rankings unchanged whenever every entry is
at least `1e-12` both before and after scaling, so that the epsilon
substitution of `vector_normalize` fires on neither matrix and the
normalisation is exactly homogeneous.  (The substitution
`X[|X| < 1e-12] = 1e-12` is not homogeneous — it can even change a
clamped column's values without changing any entry's clamp status — so
the unrestricted claim fails; see the counterexample.) -/
theorem C9_scale_invariance_amended {m n : ℕ}
    (X : Matrix (Fin (m+1)) (Fin (n+1)) ℝ) (w : Fin (n+1) → ℝ)
    (types : Fin (n+1) → IndicatorType) (c : ℝ) (hc : 0 < c)
    (hX : ∀ i j, npEps ≤ X i j ∧ npEps ≤ c * X i j) :
    ∀ i, topsis_rankings (fun i j => c * X i j) w types i =
      topsis_rankings X w types i := by
  have hEps : (0 : ℝ) < npEps := by norm_num [npEps]
  have hclampX : clampedMatrix X = X := by
    funext i j
    unfold clampedMatrix clampSmall
    rw [if_neg]
    rw [abs_of_nonneg (le_trans hEps.le (hX i j).1)]
    exact not_lt.mpr (hX i j).1
  have hclampcX : clampedMatrix (fun i j => c * X i j) =
      fun i j => c * X i j := by
    funext i j
    unfold clampedMatrix clampSmall
    rw [if_neg]
    rw [abs_of_nonneg (le_trans hEps.le (hX i j).2)]
    exact not_lt.mpr (hX i j).2
  have hnorm : ∀ j, columnNorm (fun i j => c * X i j) j =
      c * columnNorm X j := by
    intro j
    unfold columnNorm
    rw [show (∑ i, (c * X i j) ^ 2) = c ^ 2 * ∑ i, (X i j) ^ 2 by
      rw [Finset.mul_sum]
      exact Finset.sum_congr rfl fun i _ => by ring]
    rw [Real.sqrt_mul (sq_nonneg c), Real.sqrt_sq hc.le]
  have hvn : vector_normalize (fun i j => c * X i j) = vector_normalize X := by
    funext i j
    unfold vector_normalize
    rw [hclampX, hclampcX, hnorm]
    exact mul_div_mul_left _ _ hc.ne'
  have hwm : weighted_matrix (fun i j => c * X i j) w = weighted_matrix X w := by
    funext i j
    unfold weighted_matrix
    rw [hvn]
  have hCi : topsis_Ci (fun i j => c * X i j) w types = topsis_Ci X w types := by
    funext i
    unfold topsis_Ci ciDenominator D_plus D_minus
    rw [hwm]
  intro i
  unfold topsis_rankings
  rw [hCi]

/-- Witness for the amended C9: doubling the matrix `[[3,4],[4,3]]`
leaves both rankings unchanged. -/
theorem C9_amended_witness :
    (0 : ℝ) < 2 ∧
    (∀ i j, npEps ≤ (!![3, 4; 4, 3] : Matrix (Fin (1+1)) (Fin (1+1)) ℝ) i j ∧
      npEps ≤ 2 * (!![3, 4; 4, 3] : Matrix (Fin (1+1)) (Fin (1+1)) ℝ) i j) ∧
    ∀ i, topsis_rankings
        (fun i j =>
          2 * (!![3, 4; 4, 3] : Matrix (Fin (1+1)) (Fin (1+1)) ℝ) i j)
        (fun _ => 1 / 2) (fun _ => IndicatorType.benefit) i =
      topsis_rankings (!![3, 4; 4, 3] : Matrix (Fin (1+1)) (Fin (1+1)) ℝ)
        (fun _ => 1 / 2) (fun _ => IndicatorType.benefit) i := by
  have hX : ∀ i j,
      npEps ≤ (!![3, 4; 4, 3] : Matrix (Fin (1+1)) (Fin (1+1)) ℝ) i j ∧
      npEps ≤ 2 * (!![3, 4; 4, 3] : Matrix (Fin (1+1)) (Fin (1+1)) ℝ) i j := by
    intro i j
    fin_cases i <;> fin_cases j <;>
      constructor <;>
        norm_num [npEps, Matrix.cons_val_zero, Matrix.cons_val_one,
          Matrix.head_cons]
  exact ⟨by norm_num, hX,
    C9_scale_invariance_amended _ _ _ 2 (by norm_num) hX⟩

/-- C9 (counterexample): `c9X` is a valid TOPSIS input (non-negative
2×2 matrix, positive weights summing to 1, benefit indicators), yet
scaling it elementwise by the positive constant `1/4` pushes the entry
`3e-12` below the `1e-12` substitution threshold of
`vector_normalize`, collapses the first column to a constant, and flips
alternative 0 from rank 2 to rank 1. -/
theorem C9_counterexample :
    (0 : ℝ) < 1 / 4 ∧
    (∀ i j, 0 ≤ c9X i j) ∧ (∀ j, 0 < c9W j) ∧ c9W 0 + c9W 1 = 1 ∧
    topsis_rankings c9X c9W c9T 0 = 2 ∧
    topsis_rankings c9Xs c9W c9T 0 = 1 := by
  have he00 : c9X 0 0 = 3 / 10 ^ 12 := rfl
  have he10 : c9X 1 0 = 4 / 10 ^ 12 := rfl
  have he01 : c9X 0 1 = 4 := rfl
  have he11 : c9X 1 1 = 3 := rfl
  have hW0 : c9W 0 = 9 / 10 := rfl
  have hW1 : c9W 1 = 1 / 10 := rfl
  have hclamp_of : ∀ x : ℝ, npEps ≤ x → clampSmall x = x := by
    intro x hx
    unfold clampSmall
    rw [if_neg]
    rw [abs_of_nonneg (le_trans (by norm_num [npEps]) hx)]
    exact not_lt.mpr hx
  have hcl : clampedMatrix c9X = c9X := by
    funext i j
    show clampSmall (c9X i j) = c9X i j
    apply hclamp_of
    fin_cases i <;> fin_cases j <;>
      norm_num [c9X, npEps, Matrix.cons_val_zero, Matrix.cons_val_one,
        Matrix.head_cons]
  have hn0 : columnNorm c9X 0 = 5 / 10 ^ 12 := by
    unfold columnNorm
    rw [sum_univ_two2, he00, he10]
    rw [show (3 / 10 ^ 12 : ℝ) ^ 2 + (4 / 10 ^ 12) ^ 2 = (5 / 10 ^ 12) ^ 2
      by norm_num]
    exact Real.sqrt_sq (by norm_num)
  have hn1 : columnNorm c9X 1 = 5 := by
    unfold columnNorm
    rw [sum_univ_two2, he01, he11]
    rw [show (4 : ℝ) ^ 2 + (3 : ℝ) ^ 2 = (5 : ℝ) ^ 2 by norm_num]
    exact Real.sqrt_sq (by norm_num)
  have hv00 : vector_normalize c9X 0 0 = 3 / 5 := by
    unfold vector_normalize
    rw [hcl, hn0, he00]
    norm_num
  have hv10 : vector_normalize c9X 1 0 = 4 / 5 := by
    unfold vector_normalize
    rw [hcl, hn0, he10]
    norm_num
  have hv01 : vector_normalize c9X 0 1 = 4 / 5 := by
    unfold vector_normalize
    rw [hcl, hn1, he01]
  have hv11 : vector_normalize c9X 1 1 = 3 / 5 := by
    unfold vector_normalize
    rw [hcl, hn1, he11]
  have hw00 : weighted_matrix c9X c9W 0 0 = 27 / 50 := by
    unfold weighted_matrix
    rw [hv00, hW0]
    norm_num
  have hw10 : weighted_matrix c9X c9W 1 0 = 18 / 25 := by
    unfold weighted_matrix
    rw [hv10, hW0]
    norm_num
  have hw01 : weighted_matrix c9X c9W 0 1 = 2 / 25 := by
    unfold weighted_matrix
    rw [hv01, hW1]
    norm_num
  have hw11 : weighted_matrix c9X c9W 1 1 = 3 / 50 := by
    unfold weighted_matrix
    rw [hv11, hW1]
    norm_num
  have hP0 : identify_PIS (weighted_matrix c9X c9W) c9T 0 = 18 / 25 := by
    unfold identify_PIS
    rw [if_pos (show c9T 0 = IndicatorType.benefit from rfl), sup_univ_two2, hw00, hw10, max_eq_right (by norm_num)]
  have hP1 : identify_PIS (weighted_matrix c9X c9W) c9T 1 = 2 / 25 := by
    unfold identify_PIS
    rw [if_pos (show c9T 1 = IndicatorType.benefit from rfl), sup_univ_two2, hw01, hw11, max_eq_left (by norm_num)]
  have hN0 : identify_NIS (weighted_matrix c9X c9W) c9T 0 = 27 / 50 := by
    unfold identify_NIS
    rw [if_pos (show c9T 0 = IndicatorType.benefit from rfl), inf_univ_two2, hw00, hw10, min_eq_left (by norm_num)]
  have hN1 : identify_NIS (weighted_matrix c9X c9W) c9T 1 = 3 / 50 := by
    unfold identify_NIS
    rw [if_pos (show c9T 1 = IndicatorType.benefit from rfl), inf_univ_two2, hw01, hw11, min_eq_right (by norm_num)]
  have hDp0 : D_plus c9X c9W c9T 0 = 9 / 50 := by
    unfold D_plus
    rw [sum_univ_two2, hw00, hw01, hP0, hP1]
    rw [show (27 / 50 - 18 / 25 : ℝ) ^ 2 + (2 / 25 - 2 / 25 : ℝ) ^ 2 =
      (9 / 50 : ℝ) ^ 2 by norm_num]
    exact Real.sqrt_sq (by norm_num)
  have hDm0 : D_minus c9X c9W c9T 0 = 1 / 50 := by
    unfold D_minus
    rw [sum_univ_two2, hw00, hw01, hN0, hN1]
    rw [show (27 / 50 - 27 / 50 : ℝ) ^ 2 + (2 / 25 - 3 / 50 : ℝ) ^ 2 =
      (1 / 50 : ℝ) ^ 2 by norm_num]
    exact Real.sqrt_sq (by norm_num)
  have hDp1 : D_plus c9X c9W c9T 1 = 1 / 50 := by
    unfold D_plus
    rw [sum_univ_two2, hw10, hw11, hP0, hP1]
    rw [show (18 / 25 - 18 / 25 : ℝ) ^ 2 + (3 / 50 - 2 / 25 : ℝ) ^ 2 =
      (1 / 50 : ℝ) ^ 2 by norm_num]
    exact Real.sqrt_sq (by norm_num)
  have hDm1 : D_minus c9X c9W c9T 1 = 9 / 50 := by
    unfold D_minus
    rw [sum_univ_two2, hw10, hw11, hN0, hN1]
    rw [show (18 / 25 - 27 / 50 : ℝ) ^ 2 + (3 / 50 - 3 / 50 : ℝ) ^ 2 =
      (9 / 50 : ℝ) ^ 2 by norm_num]
    exact Real.sqrt_sq (by norm_num)
  have hCi0 : topsis_Ci c9X c9W c9T 0 = 1 / 10 := by
    unfold topsis_Ci ciDenominator
    rw [hDp0, hDm0]
    rw [if_neg (by norm_num [ciEps])]
    norm_num
  have hCi1 : topsis_Ci c9X c9W c9T 1 = 9 / 10 := by
    unfold topsis_Ci ciDenominator
    rw [hDp1, hDm1]
    rw [if_neg (by norm_num [ciEps])]
    norm_num
  have hrankX : topsis_rankings c9X c9W c9T 0 = 2 := by
    unfold topsis_rankings rankOf belowCount
    have hfil : (Finset.univ.filter fun k : Fin (1+1) =>
        topsis_Ci c9X c9W c9T k < topsis_Ci c9X c9W c9T 0 ∨
        (topsis_Ci c9X c9W c9T k = topsis_Ci c9X c9W c9T 0 ∧ k < 0)) = ∅ :=
      Finset.ext_iff.mpr (Fin.forall_fin_two.mpr
        ⟨by simp, by simp [hCi0, hCi1]; norm_num⟩)
    rw [hfil, Finset.card_empty]
  have hcls00 : clampedMatrix c9Xs 0 0 = npEps := by
    show clampSmall (1 / 4 * c9X 0 0) = npEps
    rw [he00]
    unfold clampSmall
    rw [if_pos]
    rw [abs_of_nonneg (by norm_num)]
    norm_num [npEps]
  have hcls10 : clampedMatrix c9Xs 1 0 = npEps := by
    show clampSmall (1 / 4 * c9X 1 0) = npEps
    rw [he10, show (1 / 4 * (4 / 10 ^ 12) : ℝ) = npEps by norm_num [npEps]]
    exact hclamp_of _ (le_refl _)
  have hcls01 : clampedMatrix c9Xs 0 1 = 1 := by
    show clampSmall (1 / 4 * c9X 0 1) = 1
    rw [he01, show (1 / 4 * 4 : ℝ) = 1 by norm_num]
    exact hclamp_of _ (by norm_num [npEps])
  have hcls11 : clampedMatrix c9Xs 1 1 = 3 / 4 := by
    show clampSmall (1 / 4 * c9X 1 1) = 3 / 4
    rw [he11, show (1 / 4 * 3 : ℝ) = 3 / 4 by norm_num]
    exact hclamp_of _ (by norm_num [npEps])
  have hnY1 : columnNorm (clampedMatrix c9Xs) 1 = 5 / 4 := by
    unfold columnNorm
    rw [sum_univ_two2, hcls01, hcls11]
    rw [show (1 : ℝ) ^ 2 + (3 / 4 : ℝ) ^ 2 = (5 / 4 : ℝ) ^ 2 by norm_num]
    exact Real.sqrt_sq (by norm_num)
  have hvY0eq : vector_normalize c9Xs 0 0 = vector_normalize c9Xs 1 0 := by
    unfold vector_normalize
    rw [hcls00, hcls10]
  have hvY01 : vector_normalize c9Xs 0 1 = 4 / 5 := by
    unfold vector_normalize
    rw [hcls01, hnY1]
    norm_num
  have hvY11 : vector_normalize c9Xs 1 1 = 3 / 5 := by
    unfold vector_normalize
    rw [hcls11, hnY1]
    norm_num
  have hwY0eq : weighted_matrix c9Xs c9W 0 0 = weighted_matrix c9Xs c9W 1 0 := by
    unfold weighted_matrix
    rw [hvY0eq]
  have hwY01 : weighted_matrix c9Xs c9W 0 1 = 2 / 25 := by
    unfold weighted_matrix
    rw [hvY01, hW1]
    norm_num
  have hwY11 : weighted_matrix c9Xs c9W 1 1 = 3 / 50 := by
    unfold weighted_matrix
    rw [hvY11, hW1]
    norm_num
  have hPY0 : identify_PIS (weighted_matrix c9Xs c9W) c9T 0 =
      weighted_matrix c9Xs c9W 0 0 := by
    unfold identify_PIS
    rw [if_pos (show c9T 0 = IndicatorType.benefit from rfl), sup_univ_two2, ← hwY0eq, max_self]
  have hPY1 : identify_PIS (weighted_matrix c9Xs c9W) c9T 1 = 2 / 25 := by
    unfold identify_PIS
    rw [if_pos (show c9T 1 = IndicatorType.benefit from rfl), sup_univ_two2, hwY01, hwY11, max_eq_left (by norm_num)]
  have hNY0 : identify_NIS (weighted_matrix c9Xs c9W) c9T 0 =
      weighted_matrix c9Xs c9W 0 0 := by
    unfold identify_NIS
    rw [if_pos (show c9T 0 = IndicatorType.benefit from rfl), inf_univ_two2, ← hwY0eq, min_self]
  have hNY1 : identify_NIS (weighted_matrix c9Xs c9W) c9T 1 = 3 / 50 := by
    unfold identify_NIS
    rw [if_pos (show c9T 1 = IndicatorType.benefit from rfl), inf_univ_two2, hwY01, hwY11, min_eq_right (by norm_num)]
  have hDpY0 : D_plus c9Xs c9W c9T 0 = 0 := by
    unfold D_plus
    rw [sum_univ_two2, hPY0, hPY1, hwY01, sub_self, sub_self]
    simp
  have hDmY0 : D_minus c9Xs c9W c9T 0 = 1 / 50 := by
    unfold D_minus
    rw [sum_univ_two2, hNY0, hNY1, hwY01, sub_self]
    rw [show (0 : ℝ) ^ 2 + (2 / 25 - 3 / 50 : ℝ) ^ 2 = (1 / 50 : ℝ) ^ 2
      by norm_num]
    exact Real.sqrt_sq (by norm_num)
  have hDpY1 : D_plus c9Xs c9W c9T 1 = 1 / 50 := by
    unfold D_plus
    rw [sum_univ_two2, hPY0, hPY1, hwY11, hwY0eq, sub_self]
    rw [show (0 : ℝ) ^ 2 + (3 / 50 - 2 / 25 : ℝ) ^ 2 = (1 / 50 : ℝ) ^ 2
      by norm_num]
    exact Real.sqrt_sq (by norm_num)
  have hDmY1 : D_minus c9Xs c9W c9T 1 = 0 := by
    unfold D_minus
    rw [sum_univ_two2, hNY0, hNY1, hwY11, hwY0eq, sub_self, sub_self]
    simp
  have hCiY0 : topsis_Ci c9Xs c9W c9T 0 = 1 := by
    unfold topsis_Ci ciDenominator
    rw [hDpY0, hDmY0]
    rw [if_neg (by norm_num [ciEps])]
    norm_num
  have hCiY1 : topsis_Ci c9Xs c9W c9T 1 = 0 := by
    unfold topsis_Ci ciDenominator
    rw [hDpY1, hDmY1]
    rw [if_neg (by norm_num [ciEps])]
    norm_num
  have hrankY : topsis_rankings c9Xs c9W c9T 0 = 1 := by
    unfold topsis_rankings rankOf belowCount
    have hfil : (Finset.univ.filter fun k : Fin (1+1) =>
        topsis_Ci c9Xs c9W c9T k < topsis_Ci c9Xs c9W c9T 0 ∨
        (topsis_Ci c9Xs c9W c9T k = topsis_Ci c9Xs c9W c9T 0 ∧ k < 0)) =
        {1} :=
      Finset.ext_iff.mpr (Fin.forall_fin_two.mpr
        ⟨by simp, by simp [hCiY0, hCiY1]⟩)
    rw [hfil, Finset.card_singleton]
  refine ⟨by norm_num, ?_, ?_, ?_, hrankX, hrankY⟩
  · intro i j
    fin_cases i <;> fin_cases j <;>
      norm_num [c9X, Matrix.cons_val_zero, Matrix.cons_val_one,
        Matrix.head_cons]
  · intro j
    fin_cases j <;>
      norm_num [c9W, Matrix.cons_val_zero, Matrix.cons_val_one,
        Matrix.head_cons]
  · rw [hW0, hW1]
    norm_num

/-- Witness for C3 at a concrete 2×2 input. -/
theorem C3_witness :
    (0 ≤ topsis_Ci (fun _ _ => (1 : ℝ) : Matrix (Fin (1+1)) (Fin (1+1)) ℝ)
        (fun _ => 1 / 2) (fun _ => IndicatorType.benefit) 0 ∧
      topsis_Ci (fun _ _ => (1 : ℝ) : Matrix (Fin (1+1)) (Fin (1+1)) ℝ)
        (fun _ => 1 / 2) (fun _ => IndicatorType.benefit) 0 ≤ 1) ∧
    Finset.image
        (topsis_rankings
          (fun _ _ => (1 : ℝ) : Matrix (Fin (1+1)) (Fin (1+1)) ℝ)
          (fun _ => 1 / 2) (fun _ => IndicatorType.benefit))
        Finset.univ = Finset.Icc 1 (1 + 1) :=
  ⟨(C3_invariants _ _ _).1 0, (C3_invariants _ _ _).2.1⟩

/-- An eigenvector of a strictly positive matrix that is sign-consistent
and positive somewhere is strictly positive everywhere (the elementary
direction of Perron's theorem used to justify `np.abs` on the principal
eigenvector). -/
theorem perron_pos_of_sign_consistent {n : ℕ} (A : Matrix (Fin n) (Fin n) ℝ)
    (lam : ℝ) (u : Fin n → ℝ) (hA : ∀ i j, 0 < A i j)
    (heig : A.mulVec u = lam • u) (k : Fin n) (hk : 0 < u k)
    (hsign : ∀ i j, 0 ≤ u i * u j) : ∀ i, 0 < u i := by
  have hnn : ∀ i, 0 ≤ u i := by
    intro i
    by_contra h
    push_neg at h
    have := hsign i k
    nlinarith
  have hmv : ∀ i, A.mulVec u i = ∑ j, A i j * u j := fun i => rfl
  have hAv : ∀ i, 0 < A.mulVec u i := by
    intro i
    rw [hmv i]
    apply Finset.sum_pos'
    · intro j _
      exact mul_nonneg (hA i j).le (hnn j)
    · exact ⟨k, Finset.mem_univ k, mul_pos (hA i k) hk⟩
  have hlam : ∀ i, 0 < lam * u i := by
    intro i
    have h1 := hAv i
    rw [heig] at h1
    exact h1
  have hlampos : 0 < lam := by
    have := hlam k
    nlinarith
  intro i
  have h1 := hlam i
  have h2 := hnn i
  nlinarith

/-- C7: for a valid judgment matrix with consistency ratio below the
threshold, the weights produced from the principal eigenpair —
`np.abs(eigenvector)` renormalised to sum 1 — are `n` strictly positive
reals summing to `1.0`.  The eigensolver (`np.linalg.eig`, a LAPACK
call) is modelled by its output: a real eigenpair `(lam, v)` of the
positive matrix whose eigenvector is sign-consistent, as Perron's
theorem guarantees for the eigenvalue of largest real part. -/
theorem C7_weights_positive_sum_one {n : ℕ} (A : Matrix (Fin n) (Fin n) ℝ)
    (lam : ℝ) (v : Fin n → ℝ)
    (hval : ValidJudgmentMatrixR A ((ahpTol : ℚ) : ℝ))
    (hCR : consistencyRatio lam n < 1 / 10)
    (heig : A.mulVec v = lam • v) (hv : v ≠ 0)
    (hsign : ∀ i j, 0 ≤ v i * v j) :
    (∀ i, 0 < weightsFromEigenvector v i) ∧
    ∑ i, weightsFromEigenvector v i = 1 := by
  obtain ⟨k, hk⟩ : ∃ k, v k ≠ 0 := Function.ne_iff.mp hv
  have hA : ∀ i j, 0 < A i j := hval.1
  have hpos : ∀ i, 0 < |v i| := by
    rcases lt_or_gt_of_ne hk with hneg | hposk
    · have heig2 : A.mulVec (-v) = lam • (-v) := by
        rw [Matrix.mulVec_neg, heig, smul_neg]
      have h2 := perron_pos_of_sign_consistent A lam (-v) hA heig2 k
        (neg_pos.mpr hneg) (fun i j => by
          have := hsign i j
          simpa using this)
      intro i
      exact abs_pos.mpr (neg_pos.mp (h2 i)).ne
    · have h2 := perron_pos_of_sign_consistent A lam v hA heig k hposk hsign
      intro i
      exact abs_pos.mpr (h2 i).ne'
  have hS : 0 < ∑ j, |v j| :=
    Finset.sum_pos (fun j _ => hpos j) ⟨k, Finset.mem_univ k⟩
  constructor
  · intro i
    exact div_pos (hpos i) hS
  · unfold weightsFromEigenvector
    rw [← Finset.sum_div]
    exact div_self hS.ne'

/-- Witness for C7 at the consistent matrix `[[1,2],[1/2,1]]`, whose
principal eigenpair is `lam = 2`, `v = (2,1)`. -/
theorem C7_witness :
    ((!![1, 2; 1/2, 1] : Matrix (Fin 2) (Fin 2) ℝ).mulVec ![2, 1] =
      (2 : ℝ) • ![2, 1]) ∧
    (∀ i, 0 < weightsFromEigenvector (![2, 1] : Fin 2 → ℝ) i) ∧
    ∑ i, weightsFromEigenvector (![2, 1] : Fin 2 → ℝ) i = 1 := by
  have heig : (!![1, 2; 1/2, 1] : Matrix (Fin 2) (Fin 2) ℝ).mulVec ![2, 1] =
      (2 : ℝ) • ![2, 1] := by
    funext i
    fin_cases i <;>
      simp [Matrix.mulVec, Matrix.dotProduct, Fin.sum_univ_two,
        Matrix.cons_val_zero, Matrix.cons_val_one, Matrix.head_cons] <;>
      norm_num
  refine ⟨heig, ?_⟩
  refine C7_weights_positive_sum_one (!![1, 2; 1/2, 1]) 2 ![2, 1] ?_ ?_ heig
    ?_ ?_
  · refine ⟨?_, ?_, ?_⟩
    · intro i j
      fin_cases i <;> fin_cases j <;>
        norm_num [Matrix.cons_val_zero, Matrix.cons_val_one, Matrix.head_cons]
    · intro i
      fin_cases i <;>
        norm_num [Matrix.cons_val_zero, Matrix.cons_val_one, Matrix.head_cons,
          ahpTol, npRtol]
    · intro i j
      fin_cases i <;> fin_cases j <;>
        norm_num [Matrix.cons_val_zero, Matrix.cons_val_one, Matrix.head_cons,
          ahpTol, npRtol]
  · norm_num [consistencyRatio, riTable]
  · intro h
    have h0 := congrFun h 0
    simp [Matrix.cons_val_zero] at h0
  · intro i j
    fin_cases i <;> fin_cases j <;>
      norm_num [Matrix.cons_val_zero, Matrix.cons_val_one, Matrix.head_cons]

end AhpFceTopsis
